import Mathlib

/-!
Shallow embedding of the probe scheduling and statistics engine of the
tcping repository (package `ping`, file `ping.go`).

Durations (`time.Duration`, int64 nanoseconds) are modelled as `ℤ`.
The `[]float64` sample buffer of the `Pinger` holds `float64` images of
those nanosecond counts; float64 samples and the real-valued quantile
arithmetic of `gonum/stat` are modelled with exact rationals `ℚ`
(every stored sample is an integer-valued rational, exactly representable
as a float64 for any realistic duration).  Fallible operations (Go panics)
return `Option`; `none` models a panic.
-/

namespace TCPing

attribute [local semireducible] Rat.add Rat.mul Rat.inv Rat.sub

/-! ## Protocol (ping.go lines 35-70)

Go's `Protocol` is an `int` with named constants `TCP = 0`, `HTTP = 1`,
`HTTPS = 2`.  -/

abbrev Protocol := ℤ

def TCP : Protocol := 0

def HTTP : Protocol := 1

def HTTPS : Protocol := 2

/-- `Protocol.String()`: `switch` over the constants, `"unknown"` otherwise. -/
def protocolString (p : Protocol) : String :=
  if p = TCP then "tcp"
  else if p = HTTP then "http"
  else if p = HTTPS then "https"
  else "unknown"

/-- Models `strings.ToLower`, written over the character list (extensionally
`String.toLower`).  Go's `strings.ToLower` is Unicode-aware while
`Char.toLower` lowercases ASCII; the two agree on every string whose
lowercase image could equal `tcp`, `http` or `https`, which is all the
embedding observes. -/
def lowerStr (s : String) : String :=
  String.mk (s.data.map Char.toLower)

/-- `NewProtocol`: `switch strings.ToLower(protocol)` against
`TCP.String()`, `HTTP.String()`, `HTTPS.String()`; otherwise the error
`protocol %s not support`. -/
def NewProtocol (s : String) : Except String Protocol :=
  if lowerStr s = protocolString TCP then .ok TCP
  else if lowerStr s = protocolString HTTP then .ok HTTP
  else if lowerStr s = protocolString HTTPS then .ok HTTPS
  else .error ("protocol " ++ s ++ " not support")

/-! ## Go error values (as inspected by `formatError`, ping.go lines 234-257)

The dynamic error types the code distinguishes: `*url.Error` (a wrapper
with a `Timeout()` method delegating to the wrapped error), `*net.OpError`
(a `net.Error` wrapper), `*os.SyscallError` (carries the raw OS error),
the `context.Canceled` and `context.DeadlineExceeded` sentinels, plain
errors, and `fmt.Errorf`-style wrappers.  The `Timeout()` result of a
wrapper is modelled as an explicit flag; the `Op`/`URL`/`Addr` fields that
only feed `Error()` strings are abstracted into fixed prefixes. -/

inductive GoError where
  | urlError (timeoutFlag : Bool) (err : GoError)
  | opError (timeoutFlag : Bool) (err : GoError)
  | syscallError (syscall : String) (msg : String)
  | canceled
  | deadlineExceeded
  | wrapped (msg : String) (err : GoError)
  | simple (msg : String)
deriving DecidableEq

/-- The `Error()` method.  Wrapper prefixes (`Op`, `URL`, network, address)
are abstracted to fixed strings; only the leaf messages are ever compared
by the claims. -/
def errMessage : GoError → String
  | .urlError _ e => "Get: " ++ errMessage e
  | .opError _ e => "dial: " ++ errMessage e
  | .syscallError sys m => sys ++ ": " ++ m
  | .canceled => "context canceled"
  | .deadlineExceeded => "context deadline exceeded"
  | .wrapped m _ => m
  | .simple m => m

/-- Models `errors.Is(err, context.Canceled)`: unwraps through
`url.Error`, `net.OpError` and `fmt.Errorf` wrappers looking for the
`context.Canceled` sentinel.  (`os.SyscallError` wraps a raw syscall
errno, never the context sentinel, so it is a leaf here.) -/
def errIsCanceled : GoError → Bool
  | .canceled => true
  | .urlError _ e => errIsCanceled e
  | .opError _ e => errIsCanceled e
  | .wrapped _ e => errIsCanceled e
  | _ => false

/-- Models `errors.Is(err, context.DeadlineExceeded)`, by the same
unwrapping. -/
def errIsDeadline : GoError → Bool
  | .deadlineExceeded => true
  | .urlError _ e => errIsDeadline e
  | .opError _ e => errIsDeadline e
  | .wrapped _ e => errIsDeadline e
  | _ => false

/-- `Pinger.formatError` (ping.go lines 234-257).  The Go type switch:
`*url.Error` first (timeout, else recurse on `err.Err`); then `net.Error`
(timeout, else the `*net.OpError` / `*os.SyscallError` unwrap, else fall
through to `return err.Error()`).  `context.DeadlineExceeded` satisfies
`net.Error` with `Timeout() == true`, hence returns `"timeout"` through
that arm.  Everything else takes the `default` arm: `"timeout"` iff
`errors.Is(err, context.DeadlineExceeded)`, else `err.Error()`. -/
def formatError : GoError → String
  | .urlError true _ => "timeout"
  | .urlError false e => formatError e
  | .opError true _ => "timeout"
  | .opError false e =>
      match e with
      | .syscallError _ m => m
      | _ => errMessage (.opError false e)
  | .deadlineExceeded => "timeout"
  | .canceled =>
      if errIsDeadline .canceled then "timeout" else errMessage .canceled
  | .wrapped m e =>
      if errIsDeadline (.wrapped m e) then "timeout" else errMessage (.wrapped m e)
  | .simple m =>
      if errIsDeadline (.simple m) then "timeout" else errMessage (.simple m)
  | .syscallError s m =>
      if errIsDeadline (.syscallError s m) then "timeout"
      else errMessage (.syscallError s m)

/-! ## Probe results and Pinger state (ping.go lines 96-203) -/

/-- One probe outcome (`Stats` struct, ping.go lines 96-104).  `Meta` and
`Extra` only feed the formatter's text and are not claim-relevant;
durations are int64 nanoseconds. -/
structure Stats where
  connected : Bool
  error : Option GoError
  durationNs : ℤ
  dnsDurationNs : ℤ
  address : String
deriving DecidableEq

/-- Mutable state of a `Pinger` (ping.go lines 139-153).  `printed` models
the sequence of per-probe lines written to `out` by `printPingResult`;
`stopOnceDone` the consumed `sync.Once`; `stopClosed` whether `stopC` has
been closed. -/
structure PingerState where
  counter : ℤ
  durations : List ℚ
  failedTotal : ℕ
  printed : List Stats
  stopOnceDone : Bool
  stopClosed : Bool
deriving DecidableEq

/-- `NewPinger`'s fresh state: open stop channel, empty sample buffer. -/
def initPinger (c : ℤ) : PingerState :=
  { counter := c, durations := [], failedTotal := 0, printed := []
    stopOnceDone := false, stopClosed := false }

/-- `Pinger.Stop` (ping.go lines 155-159): `stopOnce.Do(close(stopC))`. -/
def Stop (p : PingerState) : PingerState :=
  if p.stopOnceDone then p
  else { p with stopOnceDone := true, stopClosed := true }

/-- `Pinger.logStats` (ping.go lines 259-268): append the duration (as a
float64 of nanoseconds); if the error is non-nil increment `failedTotal`;
the subsequent `errors.Is(stats.Error, context.Canceled)` check only
executes a `return` after which no statement follows, so both branches
yield the same state. -/
def logStats (p : PingerState) (s : Stats) : PingerState :=
  let p1 := { p with durations := p.durations ++ [(s.durationNs : ℚ)] }
  match s.error with
  | none => p1
  | some e =>
    let p2 := { p1 with failedTotal := p1.failedTotal + 1 }
    if errIsCanceled e then p2 else p2

/-- `Pinger.getTotal`. -/
def getTotal (p : PingerState) : ℕ :=
  p.durations.length

/-- `Pinger.getFailedTotal`. -/
def getFailedTotal (p : PingerState) : ℕ :=
  p.failedTotal

/-- `Pinger.getSuccessTotal` (ping.go lines 294-296): Go `int`
subtraction, modelled in `ℤ`. -/
def getSuccessTotal (p : PingerState) : ℤ :=
  (getTotal p : ℤ) - (getFailedTotal p : ℤ)

/-- `Pinger.printPingResult` (ping.go lines 298-331): formats one line to
`out`; modelled as recording the probe result in emission order. -/
def printPingResult (p : PingerState) (s : Stats) : PingerState :=
  { p with printed := p.printed ++ [s] }

/-- The timer-tick branch of `Pinger.Ping`'s loop (ping.go lines 185-202),
run over a finite sequence of probe results (one per tick) with no
external stop; the list running out models the external stop arriving.
The second argument is `hasDiscardedFirst`.  Returns the final state,
whether the loop set `stop = true` itself via the counter check
`p.counter > 0 && p.getTotal() > p.counter-1`, and how many probes were
executed. -/
def pingTicks : PingerState → Bool → List Stats → PingerState × Bool × ℕ
  | p, _, [] => (p, false, 0)
  | p, false, s :: rest =>
      let p1 := printPingResult p s
      let r := pingTicks p1 true rest
      (r.1, r.2.1, r.2.2 + 1)
  | p, true, s :: rest =>
      let p1 := logStats p s
      if 0 < p1.counter ∧ (p1.counter - 1 : ℤ) < (getTotal p1 : ℤ) then
        (printPingResult p1 s, true, 1)
      else
        let r := pingTicks (printPingResult p1 s) true rest
        (r.1, r.2.1, r.2.2 + 1)

/-! ## gonum `stat.Quantile` and `stat.Mean` (as called by `Summarize`)

`Summarize` (ping.go lines 205-232) calls
`stat.Quantile(p, stat.Empirical, x, nil)` for min/max and
`stat.Quantile(p, stat.LinInterp, x, nil)` for p50/p95/p99 on the sorted
sample slice, with nil weights (every weight 1, `sumWeights = len(x)`).
The gonum loop accumulates `cumsum` (here `i+1` after inspecting index
`i`) and fires at the first index with `cumsum >= fidx` where
`fidx = p * sumWeights`; if the loop never fires it returns
`x[len(x)-1]`, which on an empty slice is an out-of-range index — a
panic, modelled as `none`. -/

/-- Loop of gonum's `empiricalQuantile` (nil weights): return the element
at the first position where the running count reaches `fidx`. -/
def empQuantileAux (fidx : ℚ) : List ℚ → ℚ → Option ℚ
  | [], _ => none
  | a :: rest, cumsum =>
      if fidx ≤ cumsum + 1 then some a
      else empQuantileAux fidx rest (cumsum + 1)

/-- gonum `stat.Quantile(p, stat.Empirical, x, nil)`: `none` models the
panic on an empty slice (`x[len(x)-1]` with `len(x) == 0`). -/
def empiricalQuantile (p : ℚ) (x : List ℚ) : Option ℚ :=
  match empQuantileAux (p * x.length) x 0 with
  | some v => some v
  | none => x.getLast?

/-- Loop of gonum's `linInterpQuantile` (nil weights): at the first
position where the running count `cumsum+1` reaches `fidx`, return
`x[0]` if at index 0, else interpolate
`t*x[i-1] + (1-t)*x[i]` with `t = cumsum+1 - fidx`; `prev` carries
`x[i-1]`. -/
def linQuantileAux (fidx : ℚ) : List ℚ → ℚ → Option ℚ → Option ℚ
  | [], _, _ => none
  | a :: rest, cumsum, prev =>
      if fidx ≤ cumsum + 1 then
        match prev with
        | none => some a
        | some b => some ((cumsum + 1 - fidx) * b + (1 - (cumsum + 1 - fidx)) * a)
      else linQuantileAux fidx rest (cumsum + 1) (some a)

/-- gonum `stat.Quantile(p, stat.LinInterp, x, nil)`: `none` models the
panic on an empty slice. -/
def linInterpQuantile (p : ℚ) (x : List ℚ) : Option ℚ :=
  match linQuantileAux (p * x.length) x 0 none with
  | some v => some v
  | none => x.getLast?

/-- gonum `stat.Mean(x, nil)`: sum divided by length (ℚ division; the
caller guards the empty case). -/
def statMean (x : List ℚ) : ℚ :=
  x.sum / (x.length : ℚ)

/-- Go's float64-to-int64 conversion (`time.Duration(f)`): truncation
toward zero — the floor for nonnegative values, the ceiling
(`-⌊-q⌋`) for negative ones. -/
def goTrunc (q : ℚ) : ℤ :=
  if 0 ≤ q then q.floor else -((-q).floor)

/-- The values printed by `Summarize`'s template (ping.go lines 205-232),
in nanoseconds after the `time.Duration` conversions. -/
structure Summary where
  total : ℕ
  success : ℤ
  failed : ℕ
  minD : ℤ
  maxD : ℤ
  avg : ℤ
  p50 : ℤ
  p95 : ℤ
  p99 : ℤ
deriving DecidableEq

/-- The statistics `Summarize` (ping.go lines 205-232) computes over the
already-sorted sample slice `d`: totals, min/max
(`getMinDuration`/`getMaxDuration`, empirical quantiles 0 and 1), the
guarded average (`average` stays 0 when `getTotal() == 0`), and the
linear-interpolation quantiles 0.5, 0.95, 0.99.  `none` models the panic
gonum raises inside the quantile calls on an empty sample set. -/
def summarizeAux (p : PingerState) (d : List ℚ) : Option Summary :=
  match empiricalQuantile 0 d, empiricalQuantile 1 d, linInterpQuantile (1/2) d,
        linInterpQuantile (95/100) d, linInterpQuantile (99/100) d with
  | some mn, some mx, some q50, some q95, some q99 =>
      some { total := getTotal p
             success := getSuccessTotal p
             failed := getFailedTotal p
             minD := goTrunc mn
             maxD := goTrunc mx
             avg := if getTotal p = 0 then 0 else goTrunc (statMean d)
             p50 := goTrunc q50
             p95 := goTrunc q95
             p99 := goTrunc q99 }
  | _, _, _, _, _ => none

/-- `Pinger.Summarize`: sort `p.durations` in place (`slices.Sort`;
modelled with insertion sort, which produces the same sorted
permutation), then compute the statistics over the sorted slice. -/
def summarize (p : PingerState) : Option Summary :=
  summarizeAux p (List.insertionSort (· ≤ ·) p.durations)

/-! ## Result (ping.go lines 348-383) -/

/-- The `Result` struct; durations in int64 nanoseconds. -/
structure Result where
  counter : ℤ
  successCounter : ℤ
  minDuration : ℤ
  maxDuration : ℤ
  totalDuration : ℤ
deriving DecidableEq

/-- `Result.Avg` (ping.go lines 360-365): zero when `SuccessCounter` is
zero, else `TotalDuration / time.Duration(SuccessCounter)` — Go int64
division, truncation toward zero (`Int.tdiv`). -/
def Result.Avg (r : Result) : ℤ :=
  if r.successCounter = 0 then 0
  else Int.tdiv r.totalDuration r.successCounter

/-- `Result.Failed` (ping.go lines 368-370). -/
def Result.Failed (r : Result) : ℤ :=
  r.counter - r.successCounter

/-- A concrete pinger state with three observed samples (1ms, 2ms, 3ms in
arrival order 3,1,2), used to evaluate the statistics pipeline. -/
def samplePinger : PingerState :=
  { initPinger 0 with durations := [3000000, 1000000, 2000000] }

/-- The summary `Summarize` produces for `samplePinger`. -/
def sampleSummary : Summary :=
  { total := 3, success := 3, failed := 0, minD := 1000000, maxD := 3000000,
    avg := 2000000, p50 := 1500000, p95 := 2850000, p99 := 2970000 }

/-! ## Basic state lemmas -/

theorem logStats_durations (p : PingerState) (s : Stats) :
    (logStats p s).durations = p.durations ++ [(s.durationNs : ℚ)] := by
  obtain ⟨c, er, dn, dd, ad⟩ := s
  cases er <;> simp [logStats]

theorem logStats_counter (p : PingerState) (s : Stats) :
    (logStats p s).counter = p.counter := by
  obtain ⟨c, er, dn, dd, ad⟩ := s
  cases er <;> simp [logStats]

theorem logStats_printed (p : PingerState) (s : Stats) :
    (logStats p s).printed = p.printed := by
  obtain ⟨c, er, dn, dd, ad⟩ := s
  cases er <;> simp [logStats]

theorem logStats_failedTotal (p : PingerState) (s : Stats) :
    (logStats p s).failedTotal
      = p.failedTotal + (if s.error.isSome then 1 else 0) := by
  obtain ⟨c, er, dn, dd, ad⟩ := s
  cases er <;> simp [logStats]

theorem logStats_getTotal (p : PingerState) (s : Stats) :
    getTotal (logStats p s) = getTotal p + 1 := by
  simp [getTotal, logStats_durations]

theorem printPingResult_durations (p : PingerState) (s : Stats) :
    (printPingResult p s).durations = p.durations := rfl

theorem printPingResult_counter (p : PingerState) (s : Stats) :
    (printPingResult p s).counter = p.counter := rfl

theorem printPingResult_failedTotal (p : PingerState) (s : Stats) :
    (printPingResult p s).failedTotal = p.failedTotal := rfl

theorem printPingResult_printed (p : PingerState) (s : Stats) :
    (printPingResult p s).printed = p.printed ++ [s] := rfl

/-! ## C7: protocol parsing -/

/-- C7: `NewProtocol` is case-insensitive and total over its error channel:
it succeeds exactly on strings whose lowercase form is one of the canonical
forms `"tcp"`, `"http"`, `"https"` (hence `NewProtocol (p.String())`
round-trips for the three protocol constants), and returns the
unsupported-protocol error for every other input. -/
theorem protocol_parse_total (s : String) :
    (lowerStr s = "tcp" → NewProtocol s = .ok TCP) ∧
    (lowerStr s = "http" → NewProtocol s = .ok HTTP) ∧
    (lowerStr s = "https" → NewProtocol s = .ok HTTPS) ∧
    (lowerStr s ≠ "tcp" → lowerStr s ≠ "http" → lowerStr s ≠ "https" →
      NewProtocol s = .error ("protocol " ++ s ++ " not support")) ∧
    (∀ q : Protocol, q = TCP ∨ q = HTTP ∨ q = HTTPS →
      NewProtocol (protocolString q) = .ok q) := by
  refine ⟨?_, ?_, ?_, ?_, ?_⟩
  · intro h
    simp [NewProtocol, h, protocolString, TCP, HTTP, HTTPS]
  · intro h
    simp [NewProtocol, h, protocolString, TCP, HTTP, HTTPS]
  · intro h
    simp [NewProtocol, h, protocolString, TCP, HTTP, HTTPS]
  · intro h1 h2 h3
    simp [NewProtocol, protocolString, TCP, HTTP, HTTPS, h1, h2, h3]
  · rintro q (rfl | rfl | rfl) <;> rfl

/-- Witness for C7 at concrete inputs: mixed-case success and an
unsupported string. -/
theorem protocol_parse_total_witness :
    NewProtocol "TcP" = .ok TCP ∧
    NewProtocol "ftp" = .error ("protocol " ++ "ftp" ++ " not support") := by
  exact ⟨(protocol_parse_total "TcP").1 (by decide),
         (protocol_parse_total "ftp").2.2.2.1 (by decide) (by decide) (by decide)⟩

/-! ## C8: Stop idempotence -/

/-- C8: `Stop` is idempotent: the first call (on a pinger whose
`sync.Once` has not fired) closes the stop channel, and for any `n ≥ 1`,
`n` calls to `Stop` leave the `Pinger` in exactly the state one call
produces. -/
theorem stop_idempotent (p : PingerState) (n : ℕ) (hn : 1 ≤ n) :
    (p.stopOnceDone = false → (Stop p).stopClosed = true) ∧
    Stop^[n] p = Stop p := by
  have key : ∀ q : PingerState, Stop (Stop q) = Stop q := by
    intro q
    by_cases h : q.stopOnceDone <;> simp [Stop, h]
  refine ⟨fun h => by simp [Stop, h], ?_⟩
  obtain ⟨m, rfl⟩ : ∃ m, n = m + 1 := ⟨n - 1, (Nat.succ_pred_eq_of_pos hn).symm⟩
  clear hn
  induction m with
  | zero => simp
  | succ k ih =>
      rw [Function.iterate_succ_apply', ih, key]

/-- Witness for C8: on a fresh pinger, one `Stop` closes the channel and
two `Stop`s equal one. -/
theorem stop_idempotent_witness :
    (Stop (initPinger 0)).stopClosed = true ∧
    Stop^[2] (initPinger 0) = Stop (initPinger 0) :=
  ⟨(stop_idempotent (initPinger 0) 2 (by decide)).1 rfl,
   (stop_idempotent (initPinger 0) 2 (by decide)).2⟩

/-! ## C10: Result.Avg -/

/-- C10: `Result.Avg` never divides by zero: it returns 0 when
`SuccessCounter` is 0 and the truncated quotient
`TotalDuration / SuccessCounter` otherwise. -/
theorem result_avg_guard (r : Result) :
    (r.successCounter = 0 → r.Avg = 0) ∧
    (r.successCounter ≠ 0 → r.Avg = Int.tdiv r.totalDuration r.successCounter) := by
  constructor <;> intro h <;> simp [Result.Avg, h]

/-- Witness for C10: both guard branches at concrete `Result` values. -/
theorem result_avg_guard_witness :
    Result.Avg { counter := 3, successCounter := 0, minDuration := 0,
                 maxDuration := 0, totalDuration := 7 } = 0 ∧
    Result.Avg { counter := 3, successCounter := 2, minDuration := 0,
                 maxDuration := 0, totalDuration := 7 } = Int.tdiv 7 2 := by
  exact ⟨(result_avg_guard _).1 (by decide), (result_avg_guard _).2 (by decide)⟩

/-! ## C9: success/failure accounting invariant -/

/-- C9: after any sequence of `logStats` calls from a fresh pinger,
`total == successes + failures` where `total` is the number of stored
durations, `failures` the failure counter and `successes` the reported
`getSuccessTotal`; the success count is moreover never negative. -/
theorem success_failure_invariant (c : ℤ) (ss : List Stats) :
    ((getTotal (ss.foldl logStats (initPinger c)) : ℤ)
        = getSuccessTotal (ss.foldl logStats (initPinger c))
          + (getFailedTotal (ss.foldl logStats (initPinger c)) : ℤ)) ∧
    getFailedTotal (ss.foldl logStats (initPinger c))
        ≤ getTotal (ss.foldl logStats (initPinger c)) := by
  refine ⟨by simp [getSuccessTotal], ?_⟩
  suffices h : ∀ (p : PingerState), getFailedTotal p ≤ getTotal p →
      getFailedTotal (ss.foldl logStats p) ≤ getTotal (ss.foldl logStats p) by
    exact h (initPinger c) (by simp [getFailedTotal, getTotal, initPinger])
  induction ss with
  | nil => intro p hp; simpa using hp
  | cons s rest ih =>
      intro p hp
      refine ih (logStats p s) ?_
      unfold getFailedTotal at hp ⊢
      rw [logStats_failedTotal, logStats_getTotal]
      rcases s.error with _ | e <;> simp <;> omega

/-! ## C1: cancellation and the failure counter (code bug)

`logStats` increments `failedTotal` *before* testing
`errors.Is(stats.Error, context.Canceled)`; the guarded `return` is the
last statement of the function, so the `// ignore cancel` branch has no
effect and a cancelled probe is counted as a failure. -/

/-- C1 (what the code actually does, contradicting the claim and the
code's own `// ignore cancel` comment): a probe result whose error is a
scheduler cancellation still increments the failure counter. -/
theorem logStats_counts_canceled_failure (p : PingerState) (s : Stats)
    (e : GoError) (hs : s.error = some e) (hc : errIsCanceled e = true) :
    (logStats p s).failedTotal = p.failedTotal + 1 := by
  rw [logStats_failedTotal, hs]
  simp

/-- Witness for C1: a concrete cancelled probe result bumps the counter
from 0 to 1. -/
theorem logStats_counts_canceled_failure_witness :
    (logStats (initPinger 0)
      { connected := false, error := some .canceled, durationNs := 5000000,
        dnsDurationNs := 0, address := "" }).failedTotal
      = (initPinger 0).failedTotal + 1 :=
  logStats_counts_canceled_failure _ _ .canceled rfl rfl

/-! ## C2: Summarize on an empty sample set (code bug)

With zero observed samples `Summarize` reaches
`stat.Quantile(0, stat.Empirical, nil, nil)` inside `getMinDuration`,
which indexes `x[len(x)-1]` on an empty slice — a runtime panic, not the
zero-valued statistics the claim requires. -/

/-- C2 (what the code actually does, contradicting the claim): on a
pinger with zero observed samples `Summarize` panics inside the quantile
computation (modelled by `none`) instead of returning zero-valued
statistics. -/
theorem summarize_empty_panics : summarize (initPinger 0) = none := by decide

/-! ## C3: error classification (corrected)

A bare `context.Canceled` is neither a `*url.Error` nor a `net.Error`,
and the `default` arm of `formatError` only tests
`context.DeadlineExceeded`; a cancellation therefore renders as its
default text `"context canceled"`, not as `"timeout"`. -/

/-- Counterexample to C3 as stated: the concrete error `context.Canceled`
does not map to the literal `"timeout"`; it maps to its default message. -/
theorem formatError_canceled_not_timeout :
    formatError .canceled = "context canceled" ∧
    formatError .canceled ≠ "timeout" := by decide

/-- C3 (amended): `formatError` maps a timeout at any protocol layer
(`url.Error` or `net.Error` reporting `Timeout`) and a context deadline
exceeded (bare or wrapped) to the single literal `"timeout"`; an
OS-originated socket error (`net.OpError` wrapping `os.SyscallError`)
maps to its raw OS error message; a non-timeout `url.Error` recurses into
its wrapped error; a context cancellation and every other error map to
their default `Error()` text. -/
theorem formatError_classification :
    (∀ e, formatError (.urlError true e) = "timeout") ∧
    (∀ e, formatError (.urlError false e) = formatError e) ∧
    (∀ e, formatError (.opError true e) = "timeout") ∧
    (formatError .deadlineExceeded = "timeout") ∧
    (∀ sys m, formatError (.opError false (.syscallError sys m)) = m) ∧
    (formatError .canceled = errMessage .canceled ∧
      errMessage .canceled = "context canceled") ∧
    (∀ m e, errIsDeadline e = true → formatError (.wrapped m e) = "timeout") ∧
    (∀ m e, errIsDeadline e = false →
      formatError (.wrapped m e) = errMessage (.wrapped m e)) ∧
    (∀ m, formatError (.simple m) = m) := by
  refine ⟨fun e => rfl, fun e => rfl, fun e => rfl, rfl, fun sys m => rfl,
    ⟨rfl, rfl⟩, ?_, ?_, fun m => rfl⟩
  · intro m e h
    simp [formatError, errIsDeadline, h]
  · intro m e h
    simp [formatError, errIsDeadline, h, errMessage]

/-- Witness for C3 (amended) at concrete inputs: a wrapped
deadline-exceeded renders `"timeout"`, a wrapped plain error renders its
default text. -/
theorem formatError_classification_witness :
    formatError (.wrapped "operation: context deadline exceeded" .deadlineExceeded)
      = "timeout" ∧
    formatError (.wrapped "operation: connection refused" (.simple "connection refused"))
      = "operation: connection refused" := by
  refine ⟨formatError_classification.2.2.2.2.2.2.1 _ _ (by decide), ?_⟩
  have h := formatError_classification.2.2.2.2.2.2.2.1
    "operation: connection refused" (.simple "connection refused") (by decide)
  simpa [errMessage] using h

/-! ## Scheduling-loop lemmas (for C4 and C5) -/

theorem initPinger_counter (c : ℤ) : (initPinger c).counter = c := rfl

theorem initPinger_durations (c : ℤ) : (initPinger c).durations = [] := rfl

theorem initPinger_printed (c : ℤ) : (initPinger c).printed = [] := rfl

theorem pingTicks_nil (p : PingerState) (b : Bool) :
    pingTicks p b [] = (p, false, 0) := by
  cases b <;> rfl

theorem pingTicks_cons_first (p : PingerState) (s : Stats) (rest : List Stats) :
    pingTicks p false (s :: rest) =
      ((pingTicks (printPingResult p s) true rest).1,
       (pingTicks (printPingResult p s) true rest).2.1,
       (pingTicks (printPingResult p s) true rest).2.2 + 1) := rfl

theorem pingTicks_cons_true (p : PingerState) (s : Stats) (rest : List Stats) :
    pingTicks p true (s :: rest) =
      if 0 < (logStats p s).counter ∧
          ((logStats p s).counter - 1 : ℤ) < (getTotal (logStats p s) : ℤ) then
        (printPingResult (logStats p s) s, true, 1)
      else
        ((pingTicks (printPingResult (logStats p s) s) true rest).1,
         (pingTicks (printPingResult (logStats p s) s) true rest).2.1,
         (pingTicks (printPingResult (logStats p s) s) true rest).2.2 + 1) := rfl

/-- Running the counted phase with the counter unable to fire before the
list ends consumes every probe, appends every duration and prints every
result (the counter may fire exactly at the last probe without changing
any of this). -/
theorem pingTicks_run (l : List Stats) :
    ∀ p : PingerState,
      (p.counter ≤ 0 ∨ (p.durations.length : ℤ) + l.length ≤ p.counter) →
      ((pingTicks p true l).1.durations
          = p.durations ++ l.map (fun s => (s.durationNs : ℚ))) ∧
      ((pingTicks p true l).1.printed = p.printed ++ l) ∧
      ((pingTicks p true l).2.2 = l.length) := by
  induction l with
  | nil => intro p _; simp [pingTicks_nil]
  | cons s rest ih =>
      intro p hp
      rw [pingTicks_cons_true]
      by_cases hc : 0 < (logStats p s).counter ∧
          ((logStats p s).counter - 1 : ℤ) < (getTotal (logStats p s) : ℤ)
      · have hrest : rest = [] := by
          obtain ⟨hc1, hc2⟩ := hc
          rw [logStats_counter] at hc1 hc2
          rw [logStats_getTotal] at hc2
          rcases hp with h0 | hlen
          · omega
          · cases rest with
            | nil => rfl
            | cons a t =>
                exfalso
                simp only [List.length_cons, getTotal] at hlen hc2
                push_cast at hlen hc2
                omega
        subst hrest
        rw [if_pos hc]
        refine ⟨?_, ?_, rfl⟩
        · rw [printPingResult_durations, logStats_durations]
          simp
        · rw [printPingResult_printed, logStats_printed]
      · rw [if_neg hc]
        have hih := ih (printPingResult (logStats p s) s) ?_
        · refine ⟨?_, ?_, ?_⟩
          · rw [hih.1, printPingResult_durations, logStats_durations]
            simp
          · rw [hih.2.1, printPingResult_printed, logStats_printed]
            simp
          · rw [hih.2.2]
            simp
        · rw [printPingResult_durations, logStats_durations,
              printPingResult_counter, logStats_counter]
          rcases hp with h0 | hlen
          · exact Or.inl h0
          · right
            simp only [List.length_append, List.length_cons, List.length_nil] at hlen ⊢
            push_cast at hlen ⊢
            omega

/-- With a positive counter still unreached but reachable within the
remaining probes, the counted phase self-terminates with exactly
`counter` stored samples, having consumed exactly `counter - stored`
further probes. -/
theorem pingTicks_stops (l : List Stats) :
    ∀ p : PingerState, 0 < p.counter →
      (p.durations.length : ℤ) < p.counter →
      p.counter ≤ (p.durations.length : ℤ) + l.length →
      ((pingTicks p true l).2.1 = true) ∧
      (((pingTicks p true l).1.durations.length : ℤ) = p.counter) ∧
      (((pingTicks p true l).2.2 : ℤ) = p.counter - p.durations.length) := by
  induction l with
  | nil =>
      intro p h1 h2 h3
      exfalso
      simp at h3
      omega
  | cons s rest ih =>
      intro p h1 h2 h3
      rw [pingTicks_cons_true]
      by_cases hc : 0 < (logStats p s).counter ∧
          ((logStats p s).counter - 1 : ℤ) < (getTotal (logStats p s) : ℤ)
      · rw [if_pos hc]
        obtain ⟨hc1, hc2⟩ := hc
        rw [logStats_counter] at hc1
        rw [logStats_counter, logStats_getTotal] at hc2
        simp only [getTotal] at hc2
        push_cast at hc2
        refine ⟨rfl, ?_, ?_⟩
        · show ((printPingResult (logStats p s) s).durations.length : ℤ) = p.counter
          rw [printPingResult_durations, logStats_durations]
          simp only [List.length_append, List.length_cons, List.length_nil]
          push_cast
          omega
        · show ((1 : ℕ) : ℤ) = p.counter - (p.durations.length : ℤ)
          push_cast
          omega
      · rw [if_neg hc]
        rw [logStats_counter, logStats_getTotal] at hc
        have hnot : ¬ ((p.counter - 1 : ℤ) < (getTotal p : ℤ) + 1) := by
          intro hlt
          exact hc ⟨h1, by push_cast; omega⟩
        push_neg at hnot
        have hih := ih (printPingResult (logStats p s) s) ?_ ?_ ?_
        · refine ⟨hih.1, ?_, ?_⟩
          · rw [hih.2.1, printPingResult_counter, logStats_counter]
          · rw [printPingResult_durations, logStats_durations] at hih
            rw [printPingResult_counter, logStats_counter] at hih
            simp only [List.length_append, List.length_cons, List.length_nil] at hih
            push_cast at hih ⊢
            omega
        · rw [printPingResult_counter, logStats_counter]
          exact h1
        · rw [printPingResult_durations, logStats_durations,
              printPingResult_counter, logStats_counter]
          simp only [List.length_append, List.length_cons, List.length_nil,
            getTotal] at hnot ⊢
          push_cast at hnot ⊢
          omega
        · rw [printPingResult_durations, logStats_durations,
              printPingResult_counter, logStats_counter]
          simp only [List.length_cons] at h3
          simp only [List.length_append, List.length_cons, List.length_nil]
          push_cast at h3 ⊢
          omega

/-- With a non-positive counter the counted phase never self-terminates. -/
theorem pingTicks_unbounded (l : List Stats) :
    ∀ p : PingerState, p.counter ≤ 0 → (pingTicks p true l).2.1 = false := by
  induction l with
  | nil => intro p _; rw [pingTicks_nil]
  | cons s rest ih =>
      intro p hp
      rw [pingTicks_cons_true]
      have hc : ¬ (0 < (logStats p s).counter ∧
          ((logStats p s).counter - 1 : ℤ) < (getTotal (logStats p s) : ℤ)) := by
        rw [logStats_counter]
        intro h
        omega
      rw [if_neg hc]
      exact ih (printPingResult (logStats p s) s)
        (by rw [printPingResult_counter, logStats_counter]; exact hp)

/-! ## C4: warm-up exclusion -/

/-- C4: over a run of `N ≥ 1` probes with no early stop, every probe
(including the very first) is printed by the formatter, but the first
probe is excluded from the aggregator and from counter accounting: the
stored samples are exactly the durations of probes 2..N, so the summary
total is `N - 1`. -/
theorem warmup_excluded (c : ℤ) (l : List Stats) (h1 : 1 ≤ l.length)
    (h2 : c ≤ 0 ∨ (l.length : ℤ) - 1 ≤ c) :
    ((pingTicks (initPinger c) false l).1.durations.length = l.length - 1) ∧
    ((pingTicks (initPinger c) false l).1.printed = l) ∧
    ((pingTicks (initPinger c) false l).1.durations
        = (l.drop 1).map (fun s => (s.durationNs : ℚ))) := by
  cases l with
  | nil => exact absurd h1 (by simp)
  | cons s rest =>
      rw [pingTicks_cons_first]
      have hrun := pingTicks_run rest (printPingResult (initPinger c) s) ?_
      · refine ⟨?_, ?_, ?_⟩
        · rw [hrun.1]
          simp [printPingResult, initPinger]
        · rw [hrun.2.1]
          simp [printPingResult, initPinger]
        · rw [hrun.1]
          simp [printPingResult, initPinger]
      · rw [printPingResult_durations, printPingResult_counter]
        simp only [initPinger, List.length_cons, List.length_nil] at h2 ⊢
        rcases h2 with h0 | hlen
        · exact Or.inl h0
        · right
          push_cast at hlen ⊢
          omega

/-- Witness for C4: three probes, unbounded counter — two samples stored,
all three printed, warm-up dropped. -/
theorem warmup_excluded_witness :
    ((pingTicks (initPinger 0) false
        [ { connected := true, error := none, durationNs := 11, dnsDurationNs := 0,
            address := "a" },
          { connected := true, error := none, durationNs := 12, dnsDurationNs := 0,
            address := "a" },
          { connected := false, error := some (.simple "refused"), durationNs := 13,
            dnsDurationNs := 0, address := "a" } ]).1.durations.length = 2) ∧
    ((pingTicks (initPinger 0) false
        [ { connected := true, error := none, durationNs := 11, dnsDurationNs := 0,
            address := "a" },
          { connected := true, error := none, durationNs := 12, dnsDurationNs := 0,
            address := "a" },
          { connected := false, error := some (.simple "refused"), durationNs := 13,
            dnsDurationNs := 0, address := "a" } ]).1.durations = [(12 : ℚ), 13]) := by
  have h := warmup_excluded 0
    [ { connected := true, error := none, durationNs := 11, dnsDurationNs := 0,
        address := "a" },
      { connected := true, error := none, durationNs := 12, dnsDurationNs := 0,
        address := "a" },
      { connected := false, error := some (.simple "refused"), durationNs := 13,
        dnsDurationNs := 0, address := "a" } ] (by decide) (Or.inl (by decide))
  exact ⟨h.1, by rw [h.2.2]; decide⟩

/-! ## C5: counter-limit termination -/

/-- C5: with a configured counter `c > 0` and no external stop, the loop
self-terminates exactly when the number of counted (non-warm-up) samples
reaches `c`, having executed exactly `c + 1` probes (warm-up included);
with `c ≤ 0` the counter never triggers termination and the loop runs
through every supplied probe. -/
theorem counter_limit_termination (c : ℤ) (l : List Stats) :
    (0 < c → c + 1 ≤ (l.length : ℤ) →
      ((pingTicks (initPinger c) false l).2.1 = true ∧
       (((pingTicks (initPinger c) false l).1.durations.length : ℤ) = c) ∧
       (((pingTicks (initPinger c) false l).2.2 : ℤ) = c + 1))) ∧
    (c ≤ 0 →
      ((pingTicks (initPinger c) false l).2.1 = false ∧
       (pingTicks (initPinger c) false l).2.2 = l.length)) := by
  constructor
  · intro hc hlen
    cases l with
    | nil => simp at hlen; omega
    | cons s rest =>
        rw [pingTicks_cons_first]
        have hstop := pingTicks_stops rest (printPingResult (initPinger c) s) ?_ ?_ ?_
        · rw [printPingResult_counter, printPingResult_durations,
              initPinger_counter, initPinger_durations] at hstop
          refine ⟨hstop.1, hstop.2.1, ?_⟩
          have h3 := hstop.2.2
          simp only [List.length_nil, Nat.cast_zero, sub_zero] at h3
          push_cast
          omega
        · rw [printPingResult_counter, initPinger_counter]
          exact hc
        · rw [printPingResult_counter, printPingResult_durations,
              initPinger_counter, initPinger_durations]
          simp only [List.length_nil, Nat.cast_zero]
          exact hc
        · rw [printPingResult_counter, printPingResult_durations,
              initPinger_counter, initPinger_durations]
          simp only [List.length_nil, List.length_cons, Nat.cast_zero, zero_add] at hlen ⊢
          push_cast at hlen ⊢
          omega
  · intro hc
    cases l with
    | nil => rw [pingTicks_nil]; exact ⟨rfl, rfl⟩
    | cons s rest =>
        rw [pingTicks_cons_first]
        have hflag := pingTicks_unbounded rest (printPingResult (initPinger c) s)
          (by rw [printPingResult_counter]; exact hc)
        have hrun := pingTicks_run rest (printPingResult (initPinger c) s)
          (Or.inl (by rw [printPingResult_counter]; exact hc))
        exact ⟨hflag, by rw [hrun.2.2]; simp⟩

/-- Witness for C5: `counter = 3` with four always-successful 10ms probes
self-terminates with exactly 3 counted samples over 4 executed probes;
`counter = 0` with the same probes never self-stops. -/
theorem counter_limit_termination_witness :
    ((pingTicks (initPinger 3) false
        (List.replicate 4
          { connected := true, error := none, durationNs := 10000000,
            dnsDurationNs := 0, address := "a" })).2.1 = true) ∧
    ((pingTicks (initPinger 3) false
        (List.replicate 4
          { connected := true, error := none, durationNs := 10000000,
            dnsDurationNs := 0, address := "a" })).1.durations.length : ℤ) = 3 ∧
    ((pingTicks (initPinger 0) false
        (List.replicate 4
          { connected := true, error := none, durationNs := 10000000,
            dnsDurationNs := 0, address := "a" })).2.1 = false) := by
  refine ⟨?_, ?_, ?_⟩
  · exact ((counter_limit_termination 3 _).1 (by decide) (by decide)).1
  · exact ((counter_limit_termination 3 _).1 (by decide) (by decide)).2.1
  · exact ((counter_limit_termination 0 _).2 (by decide)).1

/-! ## Quantile lemmas (for C6) -/

theorem empQuantileAux_cons (fidx a : ℚ) (rest : List ℚ) (cumsum : ℚ) :
    empQuantileAux fidx (a :: rest) cumsum =
      if fidx ≤ cumsum + 1 then some a
      else empQuantileAux fidx rest (cumsum + 1) := rfl

theorem linQuantileAux_cons (fidx a : ℚ) (rest : List ℚ) (cumsum : ℚ)
    (prev : Option ℚ) :
    linQuantileAux fidx (a :: rest) cumsum prev =
      if fidx ≤ cumsum + 1 then
        (match prev with
         | none => some a
         | some b => some ((cumsum + 1 - fidx) * b + (1 - (cumsum + 1 - fidx)) * a))
      else linQuantileAux fidx rest (cumsum + 1) (some a) := rfl

theorem sorted_head_le (a : ℚ) (t : List ℚ) (hs : (a :: t).Sorted (· ≤ ·)) :
    ∀ y ∈ a :: t, a ≤ y := by
  intro y hy
  rcases List.mem_cons.mp hy with rfl | hy2
  · exact le_refl y
  · exact List.rel_of_sorted_cons hs y hy2

theorem sorted_le_getLast :
    ∀ (l : List ℚ), l.Sorted (· ≤ ·) → ∀ (hne : l ≠ []) (y : ℚ), y ∈ l →
      y ≤ l.getLast hne := by
  intro l
  induction l with
  | nil => intro _ hne; cases hne rfl
  | cons a t ih =>
      intro hs hne y hy
      cases t with
      | nil =>
          rcases List.mem_cons.mp hy with rfl | h2
          · exact le_rfl
          · cases h2
      | cons b t2 =>
          have hlast : (a :: b :: t2).getLast hne
              = (b :: t2).getLast (List.cons_ne_nil b t2) :=
            List.getLast_cons (List.cons_ne_nil b t2)
          rcases List.mem_cons.mp hy with rfl | hy2
          · rw [hlast]
            exact List.rel_of_sorted_cons hs _ (List.getLast_mem _)
          · rw [hlast]
            exact ih (List.sorted_cons.mp hs).2 (List.cons_ne_nil b t2) y hy2

/-- The `linInterpQuantile` loop, started on a sorted slice with an
in-range target index, fires and produces a value between the carried
lower bound and the slice's last (largest) element. -/
theorem linQuantileAux_bounds :
    ∀ (rest : List ℚ) (a cumsum fidx : ℚ) (prev : Option ℚ),
      (a :: rest).Sorted (· ≤ ·) →
      fidx ≤ cumsum + ((a :: rest).length : ℚ) →
      (∀ b, prev = some b → b ≤ a ∧ cumsum < fidx) →
      ∃ v, linQuantileAux fidx (a :: rest) cumsum prev = some v ∧
        prev.getD a ≤ v ∧ v ≤ (a :: rest).getLast (List.cons_ne_nil a rest) := by
  intro rest
  induction rest with
  | nil =>
      intro a cumsum fidx prev hs hrange hprev
      have hcond : fidx ≤ cumsum + 1 := by
        simpa using hrange
      rw [linQuantileAux_cons, if_pos hcond]
      cases prev with
      | none => exact ⟨a, rfl, le_rfl, le_rfl⟩
      | some b =>
          obtain ⟨hba, hcf⟩ := hprev b rfl
          have ht0 : (0:ℚ) ≤ cumsum + 1 - fidx := by linarith
          have ht1 : cumsum + 1 - fidx ≤ 1 := by linarith
          refine ⟨_, rfl, ?_, ?_⟩
          · show b ≤ (cumsum + 1 - fidx) * b + (1 - (cumsum + 1 - fidx)) * a
            nlinarith [mul_nonneg (show (0:ℚ) ≤ 1 - (cumsum + 1 - fidx) by linarith)
              (show (0:ℚ) ≤ a - b by linarith)]
          · show (cumsum + 1 - fidx) * b + (1 - (cumsum + 1 - fidx)) * a ≤ a
            nlinarith [mul_nonneg ht0 (show (0:ℚ) ≤ a - b by linarith)]
  | cons x t2 ih =>
      intro a cumsum fidx prev hs hrange hprev
      have hs2 : (x :: t2).Sorted (· ≤ ·) := (List.sorted_cons.mp hs).2
      have hax : a ≤ x := List.rel_of_sorted_cons hs x (List.mem_cons_self x t2)
      have hlast : (a :: x :: t2).getLast (List.cons_ne_nil a (x :: t2))
          = (x :: t2).getLast (List.cons_ne_nil x t2) :=
        List.getLast_cons (List.cons_ne_nil x t2)
      have haglast : a ≤ (x :: t2).getLast (List.cons_ne_nil x t2) :=
        le_trans hax (sorted_head_le x t2 hs2 _ (List.getLast_mem _))
      rw [linQuantileAux_cons]
      by_cases hcond : fidx ≤ cumsum + 1
      · rw [if_pos hcond]
        cases prev with
        | none =>
            refine ⟨a, rfl, le_rfl, ?_⟩
            rw [hlast]
            exact haglast
        | some b =>
            obtain ⟨hba, hcf⟩ := hprev b rfl
            have ht0 : (0:ℚ) ≤ cumsum + 1 - fidx := by linarith
            refine ⟨_, rfl, ?_, ?_⟩
            · show b ≤ (cumsum + 1 - fidx) * b + (1 - (cumsum + 1 - fidx)) * a
              nlinarith [mul_nonneg (show (0:ℚ) ≤ 1 - (cumsum + 1 - fidx) by linarith)
                (show (0:ℚ) ≤ a - b by linarith)]
            · show (cumsum + 1 - fidx) * b + (1 - (cumsum + 1 - fidx)) * a
                ≤ (a :: x :: t2).getLast (List.cons_ne_nil a (x :: t2))
              rw [hlast]
              have hva : (cumsum + 1 - fidx) * b + (1 - (cumsum + 1 - fidx)) * a ≤ a := by
                nlinarith [mul_nonneg ht0 (show (0:ℚ) ≤ a - b by linarith)]
              exact le_trans hva haglast
      · rw [if_neg hcond]
        push_neg at hcond
        have hrange2 : fidx ≤ (cumsum + 1) + ((x :: t2).length : ℚ) := by
          push_cast [List.length_cons] at hrange ⊢
          linarith
        have hprev2 : ∀ b, (some a : Option ℚ) = some b →
            b ≤ x ∧ cumsum + 1 < fidx := by
          intro b hb
          cases Option.some.inj hb
          exact ⟨hax, hcond⟩
        obtain ⟨v, hv, hvlb, hvub⟩ :=
          ih x (cumsum + 1) fidx (some a) hs2 hrange2 hprev2
        refine ⟨v, hv, ?_, ?_⟩
        · cases prev with
          | none => simpa using hvlb
          | some b =>
              obtain ⟨hba, _⟩ := hprev b rfl
              simp only [Option.getD_some] at hvlb ⊢
              exact le_trans hba hvlb
        · rw [hlast]
          exact hvub

/-- The `linInterpQuantile` loop is monotone in the target index on a
sorted slice. -/
theorem linQuantileAux_mono :
    ∀ (rest : List ℚ) (a cumsum fidx1 fidx2 : ℚ) (prev : Option ℚ),
      (a :: rest).Sorted (· ≤ ·) →
      fidx1 ≤ fidx2 →
      fidx2 ≤ cumsum + ((a :: rest).length : ℚ) →
      (∀ b, prev = some b → b ≤ a ∧ cumsum < fidx1) →
      ∃ v1 v2, linQuantileAux fidx1 (a :: rest) cumsum prev = some v1 ∧
        linQuantileAux fidx2 (a :: rest) cumsum prev = some v2 ∧ v1 ≤ v2 := by
  intro rest
  induction rest with
  | nil =>
      intro a cumsum fidx1 fidx2 prev hs h12 hrange hprev
      have hcond2 : fidx2 ≤ cumsum + 1 := by simpa using hrange
      have hcond1 : fidx1 ≤ cumsum + 1 := le_trans h12 hcond2
      rw [linQuantileAux_cons, linQuantileAux_cons, if_pos hcond1, if_pos hcond2]
      cases prev with
      | none => exact ⟨a, a, rfl, rfl, le_rfl⟩
      | some b =>
          obtain ⟨hba, hcf⟩ := hprev b rfl
          refine ⟨_, _, rfl, rfl, ?_⟩
          nlinarith [mul_nonneg (show (0:ℚ) ≤ fidx2 - fidx1 by linarith)
            (show (0:ℚ) ≤ a - b by linarith)]
  | cons x t2 ih =>
      intro a cumsum fidx1 fidx2 prev hs h12 hrange hprev
      have hs2 : (x :: t2).Sorted (· ≤ ·) := (List.sorted_cons.mp hs).2
      have hax : a ≤ x := List.rel_of_sorted_cons hs x (List.mem_cons_self x t2)
      rw [linQuantileAux_cons fidx1 a (x :: t2) cumsum prev,
        linQuantileAux_cons fidx2 a (x :: t2) cumsum prev]
      by_cases hcond2 : fidx2 ≤ cumsum + 1
      · have hcond1 : fidx1 ≤ cumsum + 1 := le_trans h12 hcond2
        rw [if_pos hcond1, if_pos hcond2]
        cases prev with
        | none => exact ⟨a, a, rfl, rfl, le_rfl⟩
        | some b =>
            obtain ⟨hba, hcf⟩ := hprev b rfl
            refine ⟨_, _, rfl, rfl, ?_⟩
            nlinarith [mul_nonneg (show (0:ℚ) ≤ fidx2 - fidx1 by linarith)
              (show (0:ℚ) ≤ a - b by linarith)]
      · rw [if_neg hcond2]
        push_neg at hcond2
        have hrange2 : fidx2 ≤ (cumsum + 1) + ((x :: t2).length : ℚ) := by
          push_cast [List.length_cons] at hrange ⊢
          linarith
        by_cases hcond1 : fidx1 ≤ cumsum + 1
        · rw [if_pos hcond1]
          have hprev2 : ∀ b, (some a : Option ℚ) = some b →
              b ≤ x ∧ cumsum + 1 < fidx2 := by
            intro b hb
            cases Option.some.inj hb
            exact ⟨hax, hcond2⟩
          obtain ⟨v2, hv2, hv2lb, hv2ub⟩ :=
            linQuantileAux_bounds t2 x (cumsum + 1) fidx2 (some a) hs2 hrange2 hprev2
          simp only [Option.getD_some] at hv2lb
          cases prev with
          | none =>
              exact ⟨a, v2, rfl, hv2, hv2lb⟩
          | some b =>
              obtain ⟨hba, hcf⟩ := hprev b rfl
              refine ⟨_, v2, rfl, hv2, ?_⟩
              have hv1a : (cumsum + 1 - fidx1) * b + (1 - (cumsum + 1 - fidx1)) * a
                  ≤ a := by
                nlinarith [mul_nonneg (show (0:ℚ) ≤ cumsum + 1 - fidx1 by linarith)
                  (show (0:ℚ) ≤ a - b by linarith)]
              exact le_trans hv1a hv2lb
        · rw [if_neg hcond1]
          push_neg at hcond1
          have hprev2 : ∀ b, (some a : Option ℚ) = some b →
              b ≤ x ∧ cumsum + 1 < fidx1 := by
            intro b hb
            cases Option.some.inj hb
            exact ⟨hax, hcond1⟩
          exact ih x (cumsum + 1) fidx1 fidx2 (some a) hs2 h12 hrange2 hprev2

/-- `stat.Quantile(0, stat.Empirical, x, nil)` on a non-empty slice is its
first element. -/
theorem empiricalQuantile_zero (l : List ℚ) (hne : l ≠ []) :
    empiricalQuantile 0 l = some (l.head hne) := by
  cases l with
  | nil => cases hne rfl
  | cons a t =>
      unfold empiricalQuantile
      rw [zero_mul, empQuantileAux_cons, if_pos (by norm_num)]
      rfl

theorem empQuantileAux_last :
    ∀ (l : List ℚ) (cumsum : ℚ), l ≠ [] →
      empQuantileAux (cumsum + (l.length : ℚ)) l cumsum = l.getLast? := by
  intro l
  induction l with
  | nil => intro _ h; cases h rfl
  | cons a rest ih =>
      intro cumsum _
      cases rest with
      | nil =>
          rw [empQuantileAux_cons, if_pos (by simp)]
          rfl
      | cons b t =>
          rw [empQuantileAux_cons,
            if_neg (by push_cast [List.length_cons]; linarith [Nat.cast_nonneg (α := ℚ) t.length])]
          have harg : cumsum + (((a :: b :: t).length : ℕ) : ℚ)
              = (cumsum + 1) + (((b :: t).length : ℕ) : ℚ) := by
            push_cast [List.length_cons]
            ring
          rw [harg, ih (cumsum + 1) (List.cons_ne_nil b t)]
          rfl

/-- `stat.Quantile(1, stat.Empirical, x, nil)` on a non-empty slice is its
last element. -/
theorem empiricalQuantile_one (l : List ℚ) (hne : l ≠ []) :
    empiricalQuantile 1 l = some (l.getLast hne) := by
  unfold empiricalQuantile
  rw [one_mul, show (l.length : ℚ) = 0 + (l.length : ℚ) by ring,
    empQuantileAux_last l 0 hne, List.getLast?_eq_getLast l hne]

/-- `stat.Quantile(p, stat.LinInterp, x, nil)` on a sorted non-empty slice
with `0 ≤ p ≤ 1` fires and lies between the first and last elements. -/
theorem linInterpQuantile_bounds (l : List ℚ) (hne : l ≠ []) (p : ℚ)
    (hp0 : 0 ≤ p) (hp1 : p ≤ 1) (hs : l.Sorted (· ≤ ·)) :
    ∃ v, linInterpQuantile p l = some v ∧ l.head hne ≤ v ∧ v ≤ l.getLast hne := by
  cases l with
  | nil => cases hne rfl
  | cons a rest =>
      have hrange : p * (((a :: rest).length : ℕ) : ℚ)
          ≤ 0 + (((a :: rest).length : ℕ) : ℚ) := by
        have hlen : (0:ℚ) ≤ (((a :: rest).length : ℕ) : ℚ) := Nat.cast_nonneg _
        nlinarith
      obtain ⟨v, hv, hvlb, hvub⟩ :=
        linQuantileAux_bounds rest a 0 (p * ((a :: rest).length : ℚ)) none hs hrange
          (by intro b hb; cases hb)
      refine ⟨v, ?_, ?_, hvub⟩
      · unfold linInterpQuantile
        rw [hv]
      · simpa using hvlb

/-- `stat.Quantile(·, stat.LinInterp, x, nil)` is monotone in the
percentile on a sorted non-empty slice. -/
theorem linInterpQuantile_mono (l : List ℚ) (hne : l ≠ []) (p q : ℚ)
    (hp0 : 0 ≤ p) (hpq : p ≤ q) (hq1 : q ≤ 1) (hs : l.Sorted (· ≤ ·)) :
    ∃ v1 v2, linInterpQuantile p l = some v1 ∧ linInterpQuantile q l = some v2 ∧
      v1 ≤ v2 := by
  cases l with
  | nil => cases hne rfl
  | cons a rest =>
      have hlen : (0:ℚ) ≤ (((a :: rest).length : ℕ) : ℚ) := Nat.cast_nonneg _
      have h12 : p * (((a :: rest).length : ℕ) : ℚ)
          ≤ q * (((a :: rest).length : ℕ) : ℚ) :=
        mul_le_mul_of_nonneg_right hpq hlen
      have hrange : q * (((a :: rest).length : ℕ) : ℚ)
          ≤ 0 + (((a :: rest).length : ℕ) : ℚ) := by nlinarith
      obtain ⟨v1, v2, hv1, hv2, hle⟩ :=
        linQuantileAux_mono rest a 0 (p * ((a :: rest).length : ℚ))
          (q * ((a :: rest).length : ℚ)) none hs h12 hrange
          (by intro b hb; cases hb)
      refine ⟨v1, v2, ?_, ?_, hle⟩
      · unfold linInterpQuantile
        rw [hv1]
      · unfold linInterpQuantile
        rw [hv2]

/-- `goTrunc` in terms of the Mathlib floor and ceiling. -/
theorem goTrunc_eq (q : ℚ) : goTrunc q = if 0 ≤ q then ⌊q⌋ else ⌈q⌉ := rfl

/-- Go's float-to-`time.Duration` truncation is monotone. -/
theorem goTrunc_mono {a b : ℚ} (h : a ≤ b) : goTrunc a ≤ goTrunc b := by
  rw [goTrunc_eq, goTrunc_eq]
  by_cases ha : 0 ≤ a
  · rw [if_pos ha, if_pos (le_trans ha h)]
    exact Int.floor_mono h
  · rw [if_neg ha]
    by_cases hb : 0 ≤ b
    · rw [if_pos hb]
      have h1 : ⌈a⌉ ≤ (0:ℤ) := Int.ceil_le.mpr (by push_cast; linarith [lt_of_not_le ha])
      have h2 : (0:ℤ) ≤ ⌊b⌋ := Int.floor_nonneg.mpr hb
      omega
    · rw [if_neg hb]
      exact Int.ceil_mono h

theorem sorted_head_le_mem (l : List ℚ) (hs : l.Sorted (· ≤ ·)) (hne : l ≠ []) :
    ∀ y ∈ l, l.head hne ≤ y := by
  cases l with
  | nil => cases hne rfl
  | cons a t => exact sorted_head_le a t hs

/-! ## C6: quantile monotonicity -/

/-- C6: for every non-empty multiset of observed durations, the summary
satisfies `min ≤ p50 ≤ p95 ≤ p99 ≤ max`; min and max are the empirical
0th/100th percentiles, which coincide with the (`time.Duration`-truncated)
smallest and largest stored sample; p50/p95/p99 are the
linear-interpolation quantile estimates. -/
theorem quantile_monotone_summary (p : PingerState) (s : Summary)
    (h : summarize p = some s) :
    (s.minD ≤ s.p50 ∧ s.p50 ≤ s.p95 ∧ s.p95 ≤ s.p99 ∧ s.p99 ≤ s.maxD) ∧
    (∃ x ∈ p.durations, goTrunc x = s.minD ∧ ∀ y ∈ p.durations, x ≤ y) ∧
    (∃ x ∈ p.durations, goTrunc x = s.maxD ∧ ∀ y ∈ p.durations, y ≤ x) := by
  have hne : p.durations ≠ [] := by
    intro h0
    have hnone : summarize p = none := by
      unfold summarize
      rw [h0]
      rfl
    rw [hnone] at h
    simp at h
  set d := List.insertionSort (· ≤ ·) p.durations with hd
  have hperm : d.Perm p.durations := List.perm_insertionSort _ _
  have hsort : d.Sorted (· ≤ ·) := List.sorted_insertionSort _ _
  have hdne : d ≠ [] := by
    intro h0
    apply hne
    have hp2 := hperm.symm
    rw [h0] at hp2
    exact hp2.eq_nil
  have hmin := empiricalQuantile_zero d hdne
  have hmax := empiricalQuantile_one d hdne
  obtain ⟨v50, h50, h50lb, h50ub⟩ :=
    linInterpQuantile_bounds d hdne (1/2) (by norm_num) (by norm_num) hsort
  obtain ⟨v99, h99, h99lb, h99ub⟩ :=
    linInterpQuantile_bounds d hdne (99/100) (by norm_num) (by norm_num) hsort
  obtain ⟨v50a, v95, h50a, h95, h5095⟩ :=
    linInterpQuantile_mono d hdne (1/2) (95/100) (by norm_num) (by norm_num)
      (by norm_num) hsort
  obtain ⟨v95a, v99a, h95a, h99a, h9599⟩ :=
    linInterpQuantile_mono d hdne (95/100) (99/100) (by norm_num) (by norm_num)
      (by norm_num) hsort
  have e1 : v50 = v50a := Option.some.inj (h50.symm.trans h50a)
  have e2 : v95 = v95a := Option.some.inj (h95.symm.trans h95a)
  have e3 : v99a = v99 := Option.some.inj (h99a.symm.trans h99)
  unfold summarize summarizeAux at h
  rw [← hd, hmin, hmax, h50, h95, h99] at h
  simp only [Option.some.injEq] at h
  subst h
  refine ⟨⟨?_, ?_, ?_, ?_⟩, ?_, ?_⟩
  · exact goTrunc_mono h50lb
  · exact goTrunc_mono (by rw [e1]; exact h5095)
  · exact goTrunc_mono (by rw [e2, ← e3]; exact h9599)
  · exact goTrunc_mono h99ub
  · refine ⟨d.head hdne, hperm.mem_iff.mp (List.head_mem hdne), rfl, ?_⟩
    intro y hy
    exact sorted_head_le_mem d hsort hdne y (hperm.mem_iff.mpr hy)
  · refine ⟨d.getLast hdne, hperm.mem_iff.mp (List.getLast_mem hdne), rfl, ?_⟩
    intro y hy
    exact sorted_le_getLast d hsort hdne y (hperm.mem_iff.mpr hy)

/-- Witness for C6: the three samples 3ms, 1ms, 2ms yield
`min = 1ms ≤ p50 = 1.5ms ≤ p95 = 2.85ms ≤ p99 = 2.97ms ≤ max = 3ms`. -/
theorem quantile_monotone_summary_witness :
    (sampleSummary.minD ≤ sampleSummary.p50 ∧
     sampleSummary.p50 ≤ sampleSummary.p95 ∧
     sampleSummary.p95 ≤ sampleSummary.p99 ∧
     sampleSummary.p99 ≤ sampleSummary.maxD) ∧
    (∃ x ∈ samplePinger.durations, goTrunc x = sampleSummary.minD ∧
      ∀ y ∈ samplePinger.durations, x ≤ y) ∧
    (∃ x ∈ samplePinger.durations, goTrunc x = sampleSummary.maxD ∧
      ∀ y ∈ samplePinger.durations, y ≤ x) :=
  quantile_monotone_summary samplePinger sampleSummary (by decide)

end TCPing
